import Mathlib

/-!
# Verification of the data-fetch orchestration layer

Shallow embedding of the core of a Telegram analytics bot:

* `TransfersAnalytics` (analytics/transfers_analytics.py): the hybrid
  transfer-retrieval algorithm (`get_transfers_hybrid`, `_merge_transfers`,
  `_get_transfers_rpc_chunked`, `analyze_transfers`),
* `GraphClient` (utils/graph_helper.py): retry/backoff loop, 429 handling and
  the rate limiter,
* `QueryCache` (utils/cache_helper.py): TTL lookup and the size-enforcement
  pass.

Machine integers are modelled as `Nat`/`Int`, Python floats (timestamps,
token values, seconds) as `ℚ`, wall-clock time and `time.sleep` as an
explicit logical clock threaded through the state.
-/

/-- A transfer event as built by `_get_transfers_rpc` /
`_get_transfers_subgraph`.  RPC-sourced records carry a `log_index`
(`some i`); indexer-sourced records lack the key (`none`), so lookups use
`transfer.get('log_index', 0)`, i.e. `Option.getD 0`. -/
structure Transfer where
  from_addr : String
  to_addr : String
  value : ℚ
  block_number : ℕ
  tx_hash : String
  log_index : Option ℕ
  timestamp : ℕ
deriving DecidableEq, Repr

/-- Python `transfer['tx_hash'] + "_" + str(transfer.get('log_index', 0))`:
the dedup key built in `_merge_transfers`. -/
def dedupKey (t : Transfer) : String :=
  t.tx_hash ++ "_" ++ toString (t.log_index.getD 0)

/-- The sort key `(x['block_number'], x.get('log_index', 0))` used by
`merged.sort` in `_merge_transfers`. -/
def sortKey (t : Transfer) : ℕ × ℕ :=
  (t.block_number, t.log_index.getD 0)

/-- Lexicographic `<=` on Python tuples of two ints. -/
def keyLeB (p q : ℕ × ℕ) : Bool :=
  decide (p.1 < q.1) || (decide (p.1 = q.1) && decide (p.2 ≤ q.2))

/-- The comparison `merged.sort(key=...)` sorts by: non-decreasing sort key. -/
def mergeRel (a b : Transfer) : Prop :=
  keyLeB (sortKey a) (sortKey b) = true

instance : DecidableRel mergeRel :=
  fun a b => inferInstanceAs (Decidable (keyLeB (sortKey a) (sortKey b) = true))

instance : IsTotal Transfer mergeRel := by
  constructor
  intro a b
  simp only [mergeRel, keyLeB, Bool.or_eq_true, Bool.and_eq_true, decide_eq_true_eq]
  omega

instance : IsTrans Transfer mergeRel := by
  constructor
  intro a b c
  simp only [mergeRel, keyLeB, Bool.or_eq_true, Bool.and_eq_true, decide_eq_true_eq]
  omega

/-- The `for transfer in historical + recent:` loop body of
`_merge_transfers`: keep a transfer only when its dedup key is not in
`seen`, extending `seen` with each kept key. -/
def dedupLoop : List Transfer → List String → List Transfer
  | [], _ => []
  | t :: ts, seen =>
    if dedupKey t ∈ seen then dedupLoop ts seen
    else t :: dedupLoop ts (dedupKey t :: seen)

/-- `TransfersAnalytics._merge_transfers`: concatenate `historical` and
`recent`, drop every transfer whose `(tx_hash, log_index-or-0)` key was
already seen, then stable-sort (Python `list.sort` is stable) by
`(block_number, log_index-or-0)`. -/
def mergeTransfers (historical recent : List Transfer) : List Transfer :=
  List.insertionSort mergeRel (dedupLoop (historical ++ recent) [])

/-- Declarative first-occurrence dedup, stated from the spec's words
("keeps only the first occurrence of each key"): keep the head, drop every
later transfer with the same key, recurse. -/
def firstOcc : List Transfer → List Transfer
  | [] => []
  | t :: ts => t :: firstOcc (ts.filter fun u => !(dedupKey u == dedupKey t))
termination_by l => l.length
decreasing_by
  simp only [List.length_cons]
  exact Nat.lt_succ_of_le (List.length_filter_le _ _)

/-- Spec example, historical (indexer) transfer `A@10`. -/
def exA : Transfer :=
  { from_addr := "0xa", to_addr := "0xb", value := 1, block_number := 10,
    tx_hash := "A", log_index := none, timestamp := 100 }

/-- Spec example, historical (indexer) transfer `B@12` (no log index). -/
def exBhist : Transfer :=
  { from_addr := "0xb", to_addr := "0xc", value := 2, block_number := 12,
    tx_hash := "B", log_index := none, timestamp := 120 }

/-- Spec example, recent (on-chain) duplicate of `B@12` (log index 0). -/
def exBrpc : Transfer :=
  { from_addr := "0xb", to_addr := "0xc", value := 2, block_number := 12,
    tx_hash := "B", log_index := some 0, timestamp := 120 }

/-- Spec example, recent (on-chain) transfer `C@15`. -/
def exC : Transfer :=
  { from_addr := "0xc", to_addr := "0xd", value := 3, block_number := 15,
    tx_hash := "C", log_index := some 0, timestamp := 150 }

/-- The fetch strategy chosen by `get_transfers_hybrid`: the branch taken and
the block ranges passed to the underlying fetchers. -/
inductive FetchPlan where
  | rpcOnly (fromBlock toBlock : ℤ)
  | hybrid (rpcCutoff : ℤ) (historical recent : Option (ℤ × ℤ))
  | chunked (chunks : List (ℤ × ℤ))
deriving DecidableEq, Repr

/-- The `while current_from < to_block` loop of
`_get_transfers_rpc_chunked`: emit `(current_from, min(current_from +
chunk_size, to_block))` and restart from `current_to + 1`. -/
def rpcChunks (chunkSize : ℕ) (fromBlock toBlock : ℤ) : List (ℤ × ℤ) :=
  if h : fromBlock < toBlock then
    let currentTo := min (fromBlock + (chunkSize : ℤ)) toBlock
    (fromBlock, currentTo) :: rpcChunks chunkSize (currentTo + 1) toBlock
  else []
termination_by (toBlock - fromBlock).toNat
decreasing_by omega

/-- The strategy dispatch of `get_transfers_hybrid` (lines 98-163): defaults
(`to_block := current_block`, `from_block := max(0, to_block - 1000)`),
`block_range := to_block - from_block`; small ranges go to a single RPC
query, large ranges split at `rpc_cutoff := current_block - 1000` when a
subgraph client is available and enabled, otherwise chunked RPC.  The
historical subgraph query is issued only when `from_block < rpc_cutoff` and
covers `blockNumber_gte: from_block, blockNumber_lte: rpc_cutoff`; the
recent RPC query is issued only when `to_block > rpc_cutoff` and is passed
`(rpc_cutoff, to_block)` as its (inclusive) `fromBlock`/`toBlock`. -/
def planTransfers (currentBlock : ℤ) (fromBlockArg toBlockArg : Option ℤ)
    (maxBlocks : ℕ) (useSubgraph hasSubgraphClient : Bool) : FetchPlan :=
  let toBlock := toBlockArg.getD currentBlock
  let fromBlock := fromBlockArg.getD (max 0 (toBlock - 1000))
  let blockRange := toBlock - fromBlock
  if blockRange ≤ (maxBlocks : ℤ) then
    .rpcOnly fromBlock toBlock
  else if useSubgraph && hasSubgraphClient then
    let rpcCutoff := currentBlock - 1000
    .hybrid rpcCutoff
      (if fromBlock < rpcCutoff then some (fromBlock, rpcCutoff) else none)
      (if toBlock > rpcCutoff then some (rpcCutoff, toBlock) else none)
  else
    .chunked (rpcChunks maxBlocks fromBlock toBlock)

/-- Blocks covered by the subgraph query of `_get_transfers_subgraph`
(`blockNumber_gte: r.1, blockNumber_lte: r.2`, both inclusive). -/
def subgraphQueryBlocks (r : ℤ × ℤ) : Set ℤ := Set.Icc r.1 r.2

/-- Blocks covered by the `eth_getLogs` filter built in `_get_transfers_rpc`
(`fromBlock: r.1, toBlock: r.2`, both inclusive). -/
def rpcQueryBlocks (r : ℤ × ℤ) : Set ℤ := Set.Icc r.1 r.2

/-- `_get_transfers_rpc`: the whole body is wrapped in `try/except`; any
request-level failure is caught, logged, and an empty list returned. -/
def getTransfersRpcCaught (fetch : ℤ → ℤ → Except String (List Transfer))
    (fromBlock toBlock : ℤ) : List Transfer :=
  match fetch fromBlock toBlock with
  | .ok ts => ts
  | .error _ => []

/-- `_get_transfers_subgraph`: same shape, any exception from
`subgraph_client.query` (e.g. `GraphClientError` after exhausted retries)
is caught and an empty list returned. -/
def getTransfersSubgraphCaught (fetch : ℤ → ℤ → Except String (List Transfer))
    (fromBlock toBlock : ℤ) : List Transfer :=
  match fetch fromBlock toBlock with
  | .ok ts => ts
  | .error _ => []

/-- `get_transfers_hybrid` with the two underlying fetchers abstracted as
oracles that may fail.  Each branch of the dispatch calls the fetchers on
the planned ranges; every fetcher catches its own failures (returning `[]`)
and the surrounding `try/except` of `get_transfers_hybrid` returns `[]` on
any remaining exception, so the function is total with no error channel. -/
def getTransfersHybridRun (currentBlock : ℤ) (fromBlockArg toBlockArg : Option ℤ)
    (maxBlocks : ℕ) (useSubgraph hasSubgraphClient : Bool)
    (rpcFetch subFetch : ℤ → ℤ → Except String (List Transfer)) : List Transfer :=
  match planTransfers currentBlock fromBlockArg toBlockArg maxBlocks useSubgraph
      hasSubgraphClient with
  | .rpcOnly f t => getTransfersRpcCaught rpcFetch f t
  | .hybrid _ hist recent =>
    let historicalTransfers := match hist with
      | some (a, b) => getTransfersSubgraphCaught subFetch a b
      | none => []
    let recentTransfers := match recent with
      | some (a, b) => getTransfersRpcCaught rpcFetch a b
      | none => []
    mergeTransfers historicalTransfers recentTransfers
  | .chunked cs => cs.flatMap fun c => getTransfersRpcCaught rpcFetch c.1 c.2

/-- Outcome of one `_execute_request` call: a parsed response, a 429
(`RateLimitError`), or any other failure (timeout, non-2xx, malformed JSON,
GraphQL `errors` array) raised as a `GraphClientError` with a message. -/
inductive ReqOutcome where
  | success (v : String)
  | rateLimited
  | failure (msg : String)
deriving DecidableEq, Repr

/-- The error raised by `GraphClient.query`: either the re-raised
`RateLimitError`, or the final `GraphClientError` wrapping the attempt
count and the last failure (`None` when no attempt ran). -/
inductive QueryErr where
  | rateLimit
  | clientError (attempts : ℕ) (lastError : Option String)
deriving DecidableEq, Repr

/-- One run of the `for attempt in range(max_attempts)` loop of
`GraphClient.query`, from attempt index `attempt` with `remaining`
iterations left.  Returns the result together with the increments to
`stats['retry_count']` and `stats['failed_queries']` and the list of
back-off sleeps performed (`2 ** attempt` seconds each).  `outcomes i` is
what `_execute_request` does on attempt `i`:

* exhausted loop: raise `GraphClientError(f"... after {max_attempts}
  attempts: {last_error}")`, `failed_queries += 1`;
* success: result returned, nothing incremented;
* 429: `RateLimitError` re-raised immediately, nothing incremented;
* other exception: `retry_count += 1`, and if more attempts remain, sleep
  `2 ** attempt` seconds and continue with the failure as `last_error`. -/
def queryLoop (outcomes : ℕ → ReqOutcome) (maxAttempts : ℕ)
    (lastError : Option String) (attempt : ℕ) :
    ℕ → Except QueryErr String × ℕ × ℕ × List ℕ
  | 0 => (.error (.clientError maxAttempts lastError), 0, 1, [])
  | remaining + 1 =>
    match outcomes attempt with
    | .success v => (.ok v, 0, 0, [])
    | .rateLimited => (.error .rateLimit, 0, 0, [])
    | .failure m =>
      let rest := queryLoop outcomes maxAttempts (some m) (attempt + 1) remaining
      (rest.1, rest.2.1 + 1, rest.2.2.1,
        if 0 < remaining then 2 ^ attempt :: rest.2.2.2 else rest.2.2.2)

/-- `GraphClient.query` past the cache check: `max_attempts =
self.max_retries if retry_on_error else 1`, then the retry loop. -/
def graphQuery (outcomes : ℕ → ReqOutcome) (maxRetries : ℕ)
    (retryOnError : Bool) : Except QueryErr String × ℕ × ℕ × List ℕ :=
  let maxAttempts := if retryOnError then maxRetries else 1
  queryLoop outcomes maxAttempts none 0 maxAttempts

/-- One cache file: its key (derived from query+variables), the file's
modification time (`st_mtime`, set at write), its size in bytes, and the
stored payload. -/
structure CacheEntry where
  key : String
  mtime : ℚ
  size : ℕ
  payload : String
deriving DecidableEq, Repr

/-- `stats['entry_count']`: number of files in the cache directory. -/
def entryCount (entries : List CacheEntry) : ℕ := entries.length

/-- Total on-disk size: `sum(f.stat().st_size for f in ...)`. -/
def totalSize (entries : List CacheEntry) : ℕ := (entries.map CacheEntry.size).sum

/-- `QueryCache.get`: look the key's file up; absent → miss; present but
`now - modified_time > ttl` → delete the file and return `None` (lazy
eviction); otherwise return the stored payload.  Returns the result and the
cache directory afterwards. -/
def cacheGet (ttl now : ℚ) (entries : List CacheEntry) (k : String) :
    Option String × List CacheEntry :=
  match entries.find? (fun e => e.key == k) with
  | none => (none, entries)
  | some e =>
    if ttl < now - e.mtime then
      (none, entries.filter fun x => !(x.key == k))
    else
      (some e.payload, entries)

/-- Ordering used by `_enforce_size_limit`'s
`sorted(files, key=lambda f: f.stat().st_mtime)`. -/
def mtimeRel (a b : CacheEntry) : Prop := a.mtime ≤ b.mtime

instance : DecidableRel mtimeRel :=
  fun a b => inferInstanceAs (Decidable (a.mtime ≤ b.mtime))

instance : IsTotal CacheEntry mtimeRel := ⟨fun a b => le_total a.mtime b.mtime⟩

instance : IsTrans CacheEntry mtimeRel := ⟨fun _ _ _ => le_trans⟩

/-- The removal loop of `_enforce_size_limit`: walk the files oldest-first,
stop as soon as `total_size <= max_cache_size_bytes`, otherwise unlink the
file and subtract its size.  Returns the list of removed files. -/
def removeOldestLoop (budget : ℕ) : ℕ → List CacheEntry → List CacheEntry
  | _, [] => []
  | total, f :: fs =>
    if total ≤ budget then []
    else f :: removeOldestLoop budget (total - f.size) fs

/-- `QueryCache._enforce_size_limit`: if the total size is within
`max_cache_size_bytes` do nothing; otherwise sort the files by modification
time (oldest first) and remove them in that order until under budget. -/
def enforceSizeLimit (budget : ℕ) (entries : List CacheEntry) : List CacheEntry :=
  if totalSize entries ≤ budget then entries
  else
    entries.filter fun e =>
      decide (e ∉ removeOldestLoop budget (totalSize entries)
        (List.insertionSort mtimeRel entries))

/-- `QueryCache.set`: write (create or overwrite) the key's file with the
current time as its modification time, then run the size-enforcement
pass. -/
def cacheSet (budget : ℕ) (now : ℚ) (entries : List CacheEntry) (k : String)
    (payload : String) (size : ℕ) : List CacheEntry :=
  let written := (entries.filter fun e => !(e.key == k)) ++
    [{ key := k, mtime := now, size := size, payload := payload }]
  enforceSizeLimit budget written

/-- Rate-limiter state of `GraphClient`: the shared
`self.last_request_time` checkpoint and the current wall-clock time
(`time.time()`); `time.sleep(w)` advances the clock by `w`. -/
structure RateState where
  last : ℚ
  clock : ℚ
deriving DecidableEq, Repr

/-- `self.min_request_interval = 1.0 / rate_limit_per_second if
rate_limit_per_second > 0 else 0`. -/
def minRequestInterval (rate : ℚ) : ℚ := if 0 < rate then 1 / rate else 0

/-- `GraphClient._enforce_rate_limit`: when an interval is configured,
sleep until the gap since `last_request_time` is at least the interval,
then record the (post-sleep) current time as `last_request_time`. -/
def enforceRateLimit (interval : ℚ) (s : RateState) : RateState :=
  if 0 < interval then
    let timeSinceLast := s.clock - s.last
    if timeSinceLast < interval then
      let c := s.clock + (interval - timeSinceLast)
      { last := c, clock := c }
    else
      { last := s.clock, clock := s.clock }
  else s

/-- Times at which successive outbound (cache-miss) HTTP requests leave the
client: before each request an arbitrary non-negative delay `d` elapses
(caller think time, previous request duration), then
`_enforce_rate_limit` runs and the request is issued at the recorded
`last_request_time`. -/
def outboundTimes (interval : ℚ) : RateState → List ℚ → List ℚ
  | _, [] => []
  | s, d :: ds =>
    let s1 := enforceRateLimit interval { last := s.last, clock := s.clock + d }
    s1.last :: outboundTimes interval s1 ds

/-- The rate-limiter view of `GraphClient.query`: on a cache hit the
function returns before reaching `_enforce_rate_limit`, leaving the shared
state untouched; only a cache miss runs the limiter. -/
def queryRateState (cacheHit : Bool) (interval : ℚ) (s : RateState) : RateState :=
  if cacheHit then s else enforceRateLimit interval s

/-- The mutable `stats` dict built at the top of
`TransfersAnalytics.analyze_transfers` (before the final `net_change` /
counterparty-count rewrite). -/
structure WalletStats where
  total_transfers : ℕ
  received_count : ℕ
  sent_count : ℕ
  total_received : ℚ
  total_sent : ℚ
  unique_counterparties : Finset String
  first_transfer : Option Transfer
  last_transfer : Option Transfer
deriving DecidableEq

/-- Initial `stats` dict of `analyze_transfers`. -/
def initStats : WalletStats :=
  { total_transfers := 0, received_count := 0, sent_count := 0,
    total_received := 0, total_sent := 0, unique_counterparties := ∅,
    first_transfer := none, last_transfer := none }

/-- Body of the `for transfer in transfers:` loop of `analyze_transfers`:
`transfer['to'] == wallet` is classified as received (even when
`transfer['from']` is also the wallet), `elif transfer['from'] == wallet`
as sent; then the totals and first/last trackers update. -/
def analyzeStep (wallet : String) (s : WalletStats) (t : Transfer) : WalletStats :=
  let s1 :=
    if t.to_addr = wallet then
      { s with received_count := s.received_count + 1,
               total_received := s.total_received + t.value,
               unique_counterparties := insert t.from_addr s.unique_counterparties }
    else if t.from_addr = wallet then
      { s with sent_count := s.sent_count + 1,
               total_sent := s.total_sent + t.value,
               unique_counterparties := insert t.to_addr s.unique_counterparties }
    else s
  { s1 with total_transfers := s1.total_transfers + 1,
            first_transfer := match s1.first_transfer with
              | none => some t
              | some f => some f,
            last_transfer := some t }

/-- The loop of `analyze_transfers` over the whole transfer list. -/
def analyzeLoop (transfers : List Transfer) (wallet : String) : WalletStats :=
  transfers.foldl (analyzeStep wallet) initStats

/-- `stats['net_change'] = stats['total_received'] - stats['total_sent']`
computed at the end of `analyze_transfers`. -/
def netChange (transfers : List Transfer) (wallet : String) : ℚ :=
  (analyzeLoop transfers wallet).total_received -
    (analyzeLoop transfers wallet).total_sent

/-- C10: a transfer whose sender and recipient are both the analyzed wallet
is classified only as received: `received_count` and `total_received` grow
(by one and by its value) while `sent_count` and `total_sent` are
unchanged, `net_change` increases by the full value, and the wallet's own
address joins `unique_counterparties`. -/
theorem analyze_self_transfer_received_only (ts : List Transfer) (t : Transfer)
    (w : String) (hto : t.to_addr = w) (hfrom : t.from_addr = w) :
    (analyzeLoop (ts ++ [t]) w).received_count
        = (analyzeLoop ts w).received_count + 1
  ∧ (analyzeLoop (ts ++ [t]) w).total_received
        = (analyzeLoop ts w).total_received + t.value
  ∧ (analyzeLoop (ts ++ [t]) w).sent_count = (analyzeLoop ts w).sent_count
  ∧ (analyzeLoop (ts ++ [t]) w).total_sent = (analyzeLoop ts w).total_sent
  ∧ netChange (ts ++ [t]) w = netChange ts w + t.value
  ∧ w ∈ (analyzeLoop (ts ++ [t]) w).unique_counterparties := by
  have happ : analyzeLoop (ts ++ [t]) w = analyzeStep w (analyzeLoop ts w) t := by
    simp [analyzeLoop, List.foldl_append]
  rw [netChange, netChange, happ, analyzeStep, if_pos hto, hfrom]
  refine ⟨rfl, rfl, rfl, rfl, by ring, Finset.mem_insert_self w _⟩

/-- Concrete self-transfer exercising
`analyze_self_transfer_received_only`. -/
def exSelf : Transfer :=
  { from_addr := "0xw", to_addr := "0xw", value := 7, block_number := 20,
    tx_hash := "S", log_index := some 1, timestamp := 200 }

/-- Witness for `analyze_self_transfer_received_only` at a concrete
self-transfer appended to `[exA]`. -/
theorem analyze_self_transfer_received_only_witness :
    (analyzeLoop ([exA] ++ [exSelf]) "0xw").received_count
        = (analyzeLoop [exA] "0xw").received_count + 1
  ∧ (analyzeLoop ([exA] ++ [exSelf]) "0xw").total_received
        = (analyzeLoop [exA] "0xw").total_received + exSelf.value
  ∧ (analyzeLoop ([exA] ++ [exSelf]) "0xw").sent_count
        = (analyzeLoop [exA] "0xw").sent_count
  ∧ (analyzeLoop ([exA] ++ [exSelf]) "0xw").total_sent
        = (analyzeLoop [exA] "0xw").total_sent
  ∧ netChange ([exA] ++ [exSelf]) "0xw" = netChange [exA] "0xw" + exSelf.value
  ∧ "0xw" ∈ (analyzeLoop ([exA] ++ [exSelf]) "0xw").unique_counterparties :=
  analyze_self_transfer_received_only [exA] exSelf "0xw" rfl rfl

/-- In a list with pairwise-distinct keys, the key matching `find?` found
something on is counted exactly once. -/
theorem countP_key_eq_one (l : List CacheEntry) (k : String) (e : CacheEntry)
    (hnd : (l.map CacheEntry.key).Nodup)
    (hf : l.find? (fun x => x.key == k) = some e) :
    l.countP (fun x => x.key == k) = 1 := by
  induction l with
  | nil => simp at hf
  | cons x xs ih =>
    rw [List.map_cons, List.nodup_cons] at hnd
    rw [List.find?_cons] at hf
    rw [List.countP_cons]
    by_cases hx : x.key == k
    · have hk : x.key = k := by simpa using hx
      have hzero : xs.countP (fun y => y.key == k) = 0 := by
        rw [List.countP_eq_zero]
        intro y hy hyk
        exact hnd.1 (hk ▸ (by simpa using hyk) ▸ List.mem_map_of_mem CacheEntry.key hy)
      simp [hx, hzero]
    · simp only [hx, if_neg] at hf ⊢
      simpa [hx] using ih hnd.2 hf

/-- Retry loop, success case: `k` transient failures from attempt `a`
followed by a success return the success, add `k` to `retry_count`,
leave `failed_queries` alone, and sleep `2 ^ i` for `i = a .. a+k-1`. -/
theorem queryLoop_success (outcomes : ℕ → ReqOutcome) (maxAttempts : ℕ)
    (m : ℕ → String) (v : String) :
    ∀ (k a r : ℕ) (lastError : Option String), k < r →
    (∀ i, i < k → outcomes (a + i) = .failure (m (a + i))) →
    outcomes (a + k) = .success v →
    queryLoop outcomes maxAttempts lastError a r =
      (.ok v, k, 0, (List.range' a k).map (2 ^ ·)) := by
  intro k
  induction k with
  | zero =>
    intro a r lastError hk hfail hsucc
    obtain ⟨r, rfl⟩ : ∃ s, r = s + 1 := ⟨r - 1, by omega⟩
    have h0 : outcomes a = .success v := by simpa using hsucc
    simp [queryLoop, h0]
  | succ k ih =>
    intro a r lastError hk hfail hsucc
    obtain ⟨r, rfl⟩ : ∃ s, r = s + 1 := ⟨r - 1, by omega⟩
    have h0 : outcomes a = .failure (m a) := by simpa using hfail 0 (by omega)
    have hrest := ih (a + 1) r (some (m a)) (by omega)
      (fun i hi => by
        have h := hfail (i + 1) (by omega)
        rw [show a + 1 + i = a + (i + 1) by omega]
        exact h)
      (by rw [show a + 1 + k = a + (k + 1) by omega]; exact hsucc)
    have hr : 0 < r := by omega
    simp only [queryLoop, h0, hrest, if_pos hr]
    rw [List.range'_succ, List.map_cons]

/-- Retry loop, exhaustion case: `r` consecutive transient failures raise a
client error wrapping the last failure, add `r` to `retry_count`, increment
`failed_queries` once, and sleep `2 ^ i` for `i = a .. a+r-2`. -/
theorem queryLoop_allfail (outcomes : ℕ → ReqOutcome) (maxAttempts : ℕ)
    (m : ℕ → String) :
    ∀ (r a : ℕ) (lastError : Option String), 0 < r →
    (∀ i, i < r → outcomes (a + i) = .failure (m (a + i))) →
    queryLoop outcomes maxAttempts lastError a r =
      (.error (.clientError maxAttempts (some (m (a + r - 1)))), r, 1,
        (List.range' a (r - 1)).map (2 ^ ·)) := by
  intro r
  induction r with
  | zero => omega
  | succ r ih =>
    intro a lastError _ hfail
    have h0 : outcomes a = .failure (m a) := by simpa using hfail 0 (by omega)
    rcases Nat.eq_zero_or_pos r with hr | hr
    · subst hr
      simp [queryLoop, h0]
    · have hrest := ih (a + 1) (some (m a)) hr
        (fun i hi => by
          have h := hfail (i + 1) (by omega)
          rw [show a + 1 + i = a + (i + 1) by omega]
          exact h)
      simp only [queryLoop, h0, hrest, if_pos hr]
      rw [show a + 1 + r - 1 = a + (r + 1) - 1 by omega,
        show r + 1 - 1 = (r - 1) + 1 by omega, List.range'_succ, List.map_cons]

/-- The retry counter never exceeds the number of loop iterations. -/
theorem queryLoop_retry_le (outcomes : ℕ → ReqOutcome) (maxAttempts : ℕ) :
    ∀ (r a : ℕ) (lastError : Option String),
    (queryLoop outcomes maxAttempts lastError a r).2.1 ≤ r := by
  intro r
  induction r with
  | zero => intro a lastError; simp [queryLoop]
  | succ r ih =>
    intro a lastError
    rcases ho : outcomes a with v | _ | msg <;> simp [queryLoop, ho]
    have := ih (a + 1) (some msg)
    omega

/-- C2: with retry enabled, `GraphClient.query` retries up to `max_retries`
times (the retry counter gains at most `max_retries`), sleeping
`2 ^ attempt` seconds before each retry; `k < max_retries` transient
failures followed by a success return the successful result with the retry
counter reflecting `k` retries; exhausting all attempts raises a client
error wrapping the last failure with `failed_queries` incremented exactly
once. -/
theorem graph_query_retry (outcomes : ℕ → ReqOutcome) (maxRetries k : ℕ)
    (v : String) (m : ℕ → String) :
    (k < maxRetries → (∀ i, i < k → outcomes i = .failure (m i)) →
      outcomes k = .success v →
      graphQuery outcomes maxRetries true
        = (.ok v, k, 0, (List.range k).map (2 ^ ·)))
  ∧ (0 < maxRetries → (∀ i, i < maxRetries → outcomes i = .failure (m i)) →
      graphQuery outcomes maxRetries true
        = (.error (.clientError maxRetries (some (m (maxRetries - 1)))),
           maxRetries, 1, (List.range (maxRetries - 1)).map (2 ^ ·)))
  ∧ (graphQuery outcomes maxRetries true).2.1 ≤ maxRetries := by
  refine ⟨fun hk hfail hsucc => ?_, fun hpos hfail => ?_, ?_⟩
  · rw [graphQuery, if_pos rfl, List.range_eq_range']
    exact queryLoop_success outcomes maxRetries m v k 0 maxRetries none hk
      (by simpa using hfail) (by simpa using hsucc)
  · rw [graphQuery, if_pos rfl, List.range_eq_range']
    have h := queryLoop_allfail outcomes maxRetries m maxRetries 0 none hpos
      (by simpa using hfail)
    simpa using h
  · rw [graphQuery, if_pos rfl]
    exact queryLoop_retry_le outcomes maxRetries maxRetries 0 none

/-- Witness for `graph_query_retry`: one failure then success with
`max_retries = 3`, and three straight failures. -/
theorem graph_query_retry_witness :
    graphQuery (fun i => if i = 0 then .failure "boom" else .success "ok") 3 true
      = (.ok "ok", 1, 0, (List.range 1).map (2 ^ ·))
  ∧ graphQuery (fun _ => .failure "dead") 3 true
      = (.error (.clientError 3 (some "dead")), 3, 1,
         (List.range 2).map (2 ^ ·)) := by
  constructor
  · exact (graph_query_retry (fun i => if i = 0 then .failure "boom" else .success "ok")
      3 1 "ok" (fun _ => "boom")).1 (by omega)
      (fun i hi => by rw [Nat.lt_one_iff.mp hi]; rfl) rfl
  · exact (graph_query_retry (fun _ => .failure "dead") 3 3 "ok"
      (fun _ => "dead")).2.1 (by omega) (fun i _ => rfl)

/-- Retry loop, 429 case: transient failures followed by a rate-limit
response re-raise `RateLimitError` immediately with no further attempt,
no `failed_queries` increment, and no back-off sleep for the 429. -/
theorem queryLoop_rateLimit (outcomes : ℕ → ReqOutcome) (maxAttempts : ℕ)
    (m : ℕ → String) :
    ∀ (j a r : ℕ) (lastError : Option String), j < r →
    (∀ i, i < j → outcomes (a + i) = .failure (m (a + i))) →
    outcomes (a + j) = .rateLimited →
    queryLoop outcomes maxAttempts lastError a r =
      (.error .rateLimit, j, 0, (List.range' a j).map (2 ^ ·)) := by
  intro j
  induction j with
  | zero =>
    intro a r lastError hj hfail hrl
    obtain ⟨r, rfl⟩ : ∃ s, r = s + 1 := ⟨r - 1, by omega⟩
    have h0 : outcomes a = .rateLimited := by simpa using hrl
    simp [queryLoop, h0]
  | succ j ih =>
    intro a r lastError hj hfail hrl
    obtain ⟨r, rfl⟩ : ∃ s, r = s + 1 := ⟨r - 1, by omega⟩
    have h0 : outcomes a = .failure (m a) := by simpa using hfail 0 (by omega)
    have hrest := ih (a + 1) r (some (m a)) (by omega)
      (fun i hi => by
        have h := hfail (i + 1) (by omega)
        rw [show a + 1 + i = a + (i + 1) by omega]
        exact h)
      (by rw [show a + 1 + j = a + (j + 1) by omega]; exact hrl)
    have hr : 0 < r := by omega
    simp only [queryLoop, h0, hrest, if_pos hr]
    rw [List.range'_succ, List.map_cons]

/-- C7: a 429 is never retried inline: whatever the `retry_on_error` flag
and however many attempts remain, `GraphClient.query` surfaces the
rate-limit response immediately as the distinct `RateLimitError`, with no
extra back-off sleep and no `failed_queries` increment. -/
theorem graph_query_429_immediate (outcomes : ℕ → ReqOutcome)
    (maxRetries j : ℕ) (retryOnError : Bool) (m : ℕ → String)
    (hj : j < if retryOnError then maxRetries else 1)
    (hfail : ∀ i, i < j → outcomes i = .failure (m i))
    (hrl : outcomes j = .rateLimited) :
    graphQuery outcomes maxRetries retryOnError
      = (.error .rateLimit, j, 0, (List.range j).map (2 ^ ·)) := by
  rw [graphQuery, List.range_eq_range']
  exact queryLoop_rateLimit outcomes _ m j 0 _ none hj (by simpa using hfail)
    (by simpa using hrl)

/-- Witness for `graph_query_429_immediate`: an immediate 429 with retries
enabled and all 3 attempts remaining. -/
theorem graph_query_429_immediate_witness :
    (0 < if true then 3 else 1)
  ∧ graphQuery (fun _ => .rateLimited) 3 true
      = (.error .rateLimit, 0, 0, (List.range 0).map (2 ^ ·)) :=
  ⟨by decide,
    graph_query_429_immediate (fun _ => .rateLimited) 3 0 true (fun _ => "")
      (by decide) (fun i hi => by omega) rfl⟩

/-- C3 counterexample: at `current_block = 2000`, `from_block = 0`,
`to_block = 2000`, `max_blocks = 100`, the hybrid split issues the indexer
query over `[0, 1000]` and the on-chain query over `[1000, 2000]` — the
recent range starts AT `rpc_cutoff`, not after it, so block `1000` is
fetched from both sources, contradicting the claimed disjointness. -/
theorem hybrid_ranges_overlap_counterexample :
    planTransfers 2000 (some 0) (some 2000) 100 true true
      = .hybrid 1000 (some (0, 1000)) (some (1000, 2000))
  ∧ (1000 : ℤ) ∈ subgraphQueryBlocks (0, 1000) ∩ rpcQueryBlocks (1000, 2000) := by
  refine ⟨by decide, ?_⟩
  simp [subgraphQueryBlocks, rpcQueryBlocks, Set.mem_Icc]

/-- C3 amended: the hybrid split issues the indexer query over
`[from_block, rpc_cutoff]` and the on-chain log query over the CLOSED range
`[rpc_cutoff, to_block]`; the two sub-ranges overlap exactly at block
`rpc_cutoff`, which can be fetched from both sources, and together they
cover `[from_block, to_block]` with no gap. -/
theorem hybrid_split_ranges (cb f t : ℤ) (mb : ℕ)
    (hf : f < cb - 1000) (ht : cb - 1000 < t) (hr : (mb : ℤ) < t - f) :
    planTransfers cb (some f) (some t) mb true true
      = .hybrid (cb - 1000) (some (f, cb - 1000)) (some (cb - 1000, t))
  ∧ subgraphQueryBlocks (f, cb - 1000) ∩ rpcQueryBlocks (cb - 1000, t)
      = {cb - 1000}
  ∧ subgraphQueryBlocks (f, cb - 1000) ∪ rpcQueryBlocks (cb - 1000, t)
      = Set.Icc f t := by
  refine ⟨?_, ?_, ?_⟩
  · unfold planTransfers
    simp only [Option.getD_some]
    rw [if_neg (by omega), if_pos (by rfl), if_pos hf, if_pos ht]
  · ext x
    simp only [subgraphQueryBlocks, rpcQueryBlocks, Set.mem_inter_iff,
      Set.mem_Icc, Set.mem_singleton_iff]
    omega
  · ext x
    simp only [subgraphQueryBlocks, rpcQueryBlocks, Set.mem_union,
      Set.mem_Icc]
    omega

/-- Witness for `hybrid_split_ranges` at the counterexample's input. -/
theorem hybrid_split_ranges_witness :
    ((0 : ℤ) < 2000 - 1000) ∧ ((2000 : ℤ) - 1000 < 2000)
  ∧ (((100 : ℕ) : ℤ) < 2000 - 0)
  ∧ planTransfers 2000 (some 0) (some 2000) 100 true true
      = .hybrid (2000 - 1000) (some (0, 2000 - 1000)) (some (2000 - 1000, 2000)) :=
  ⟨by norm_num, by norm_num, by norm_num,
    (hybrid_split_ranges 2000 0 2000 100 (by norm_num) (by norm_num)
      (by norm_num)).1⟩

/-- Unfolding `rpcChunks` when the loop condition holds. -/
theorem rpcChunks_pos (chunkSize : ℕ) (f t : ℤ) (h : f < t) :
    rpcChunks chunkSize f t
      = (f, min (f + (chunkSize : ℤ)) t)
          :: rpcChunks chunkSize (min (f + (chunkSize : ℤ)) t + 1) t := by
  rw [rpcChunks]
  simp [h]

/-- Unfolding `rpcChunks` when the loop exits. -/
theorem rpcChunks_neg (chunkSize : ℕ) (f t : ℤ) (h : ¬ f < t) :
    rpcChunks chunkSize f t = [] := by
  rw [rpcChunks]
  simp [h]

/-- The chunk schedule for a 50000-block span with 10000-block chunks:
exactly 5 chunks, in block order. -/
theorem rpcChunks_50000 (f : ℤ) :
    rpcChunks 10000 f (f + 50000)
      = [(f, f + 10000), (f + 10001, f + 20001), (f + 20002, f + 30002),
         (f + 30003, f + 40003), (f + 40004, f + 50000)] := by
  have c : ((10000 : ℕ) : ℤ) = 10000 := by norm_num
  rw [rpcChunks_pos _ _ _ (by omega), c,
    show min (f + 10000) (f + 50000) = f + 10000 by omega,
    show f + 10000 + 1 = f + 10001 by ring,
    rpcChunks_pos _ _ _ (by omega), c,
    show min (f + 10001 + 10000) (f + 50000) = f + 20001 by omega,
    show f + 20001 + 1 = f + 20002 by ring,
    rpcChunks_pos _ _ _ (by omega), c,
    show min (f + 20002 + 10000) (f + 50000) = f + 30002 by omega,
    show f + 30002 + 1 = f + 30003 by ring,
    rpcChunks_pos _ _ _ (by omega), c,
    show min (f + 30003 + 10000) (f + 50000) = f + 40003 by omega,
    show f + 40003 + 1 = f + 40004 by ring,
    rpcChunks_pos _ _ _ (by omega), c,
    show min (f + 40004 + 10000) (f + 50000) = f + 50000 by omega,
    show f + 50000 + 1 = f + 50001 by ring,
    rpcChunks_neg _ _ _ (by omega)]

/-- C5: with `max_blocks = 10000`, a request spanning 500 blocks selects a
single on-chain query; spanning 50000 blocks with an indexer selects the
hybrid split at `current_block - 1000`; spanning 50000 blocks with no
indexer selects chunked on-chain fetching in exactly 5 chunks, issued in
strictly increasing block order. -/
theorem plan_selection (cb f : ℤ) (useSub hasClient : Bool) :
    planTransfers cb (some f) (some (f + 500)) 10000 useSub hasClient
      = .rpcOnly f (f + 500)
  ∧ (∃ hist recent, planTransfers cb (some f) (some (f + 50000)) 10000 true true
      = .hybrid (cb - 1000) hist recent)
  ∧ (∀ us : Bool, planTransfers cb (some f) (some (f + 50000)) 10000 us false
      = .chunked (rpcChunks 10000 f (f + 50000)))
  ∧ (rpcChunks 10000 f (f + 50000)).length = 5
  ∧ (rpcChunks 10000 f (f + 50000)).Chain' (fun c d => c.2 < d.1) := by
  refine ⟨?_, ?_, ?_, ?_, ?_⟩
  · unfold planTransfers
    simp only [Option.getD_some]
    rw [if_pos (by omega)]
  · refine ⟨if f < cb - 1000 then some (f, cb - 1000) else none,
      if f + 50000 > cb - 1000 then some (cb - 1000, f + 50000) else none, ?_⟩
    unfold planTransfers
    simp only [Option.getD_some]
    rw [if_neg (by omega), if_pos (by rfl)]
  · intro us
    unfold planTransfers
    simp only [Option.getD_some]
    rw [if_neg (by omega), if_neg (by simp)]
  · rw [rpcChunks_50000]
    rfl
  · rw [rpcChunks_50000]
    simp only [List.chain'_cons, List.chain'_singleton, and_true]
    omega

/-- C8 counterexample: when both underlying fetchers fail at request level
("all retries exhausted", "indexer unreachable"), `get_transfers_hybrid`
returns the plain empty list — the same value a successful empty fetch
returns — instead of propagating any error. -/
theorem hybrid_absorbs_failure_counterexample :
    getTransfersHybridRun 2000 (some 0) (some 2000) 100 true true
        (fun _ _ => .error "all retries exhausted")
        (fun _ _ => .error "indexer unreachable") = []
  ∧ getTransfersHybridRun 2000 (some 0) (some 2000) 100 true true
        (fun _ _ => .ok []) (fun _ _ => .ok []) = [] := by
  exact ⟨rfl, rfl⟩

/-- Flat-mapping an always-empty fetch yields the empty list. -/
theorem flatMap_const_nil (cs : List (ℤ × ℤ)) :
    (cs.flatMap fun _ => ([] : List Transfer)) = [] := by
  induction cs with
  | nil => rfl
  | cons c cs ih => simp [ih]

/-- C8 amended: request-level fetch failures never propagate out of
`get_transfers_hybrid`: every layer (`_get_transfers_rpc`,
`_get_transfers_subgraph`, and the surrounding `try/except`) catches the
failure and substitutes an empty list, so for EVERY input whose underlying
fetches all fail the caller receives `[]` with no error indication. -/
theorem hybrid_fetch_failures_absorbed (cb : ℤ) (fa ta : Option ℤ) (mb : ℕ)
    (us hc : Bool) (e1 e2 : String) :
    getTransfersHybridRun cb fa ta mb us hc
      (fun _ _ => .error e1) (fun _ _ => .error e2) = [] := by
  unfold getTransfersHybridRun
  rcases hp : planTransfers cb fa ta mb us hc with ⟨f, t⟩ | ⟨c, hist, recent⟩ | cs
  · rfl
  · rcases hist with _ | ⟨a, b⟩ <;> rcases recent with _ | ⟨a2, b2⟩ <;> rfl
  · simp only [getTransfersRpcCaught]
    exact flatMap_const_nil cs

/-- One pass of `_enforce_rate_limit` pushes the recorded
`last_request_time` at least one interval past the previous one. -/
theorem enforceRateLimit_gap (i : ℚ) (hi : 0 < i) (s : RateState) :
    s.last + i ≤ (enforceRateLimit i s).last := by
  unfold enforceRateLimit
  rw [if_pos hi]
  by_cases h : s.clock - s.last < i
  · rw [if_pos h]
    simp only
    linarith
  · rw [if_neg h]
    simp only
    linarith

/-- Consecutive outbound request times are spaced by at least the
configured interval, from any starting state and for any inter-call
delays. -/
theorem outboundTimes_spaced (i : ℚ) (hi : 0 < i) :
    ∀ (ds : List ℚ) (s : RateState),
    (outboundTimes i s ds).Chain' (fun a b => a + i ≤ b)
  ∧ (∀ y ∈ (outboundTimes i s ds).head?, s.last + i ≤ y) := by
  intro ds
  induction ds with
  | nil => intro s; simp [outboundTimes]
  | cons d ds ih =>
    intro s
    have hstep : outboundTimes i s (d :: ds)
        = (enforceRateLimit i { last := s.last, clock := s.clock + d }).last
          :: outboundTimes i (enforceRateLimit i { last := s.last, clock := s.clock + d }) ds :=
      rfl
    rw [hstep]
    constructor
    · exact List.chain'_cons'.mpr
        ⟨fun y hy => (ih _).2 y hy, (ih _).1⟩
    · intro y hy
      simp only [List.head?_cons, Option.mem_def, Option.some.injEq] at hy
      subst hy
      exact enforceRateLimit_gap i hi { last := s.last, clock := s.clock + d }

/-- C9: with `rate_limit_per_second = r > 0`, successive outbound
(cache-miss) requests through `GraphClient` are spaced at least
`1 / r` seconds apart (200 ms for `r = 5`), whatever the callers' own
delays; a cache hit returns before `_enforce_rate_limit` runs, leaving the
shared `last_request_time` (and the clock) untouched. -/
theorem rate_limiter_spacing (r : ℚ) (hr : 0 < r) (s : RateState)
    (ds : List ℚ) :
    (outboundTimes (minRequestInterval r) s ds).Chain'
      (fun a b => a + 1 / r ≤ b)
  ∧ (∀ s' : RateState, queryRateState true (minRequestInterval r) s' = s') := by
  have hint : minRequestInterval r = 1 / r := by
    unfold minRequestInterval
    rw [if_pos hr]
  have hpos : (0 : ℚ) < 1 / r := by positivity
  rw [hint]
  exact ⟨(outboundTimes_spaced (1 / r) hpos ds s).1,
    fun s' => by unfold queryRateState; rw [if_pos rfl]⟩

/-- Witness for `rate_limiter_spacing` at `rate = 5` requests/second
(interval 1/5 s = 200 ms) and three back-to-back calls. -/
theorem rate_limiter_spacing_witness :
    (0 : ℚ) < 5
  ∧ (outboundTimes (minRequestInterval 5) ⟨0, 0⟩ [0, 0, 1]).Chain'
      (fun a b => a + 1 / 5 ≤ b)
  ∧ queryRateState true (minRequestInterval 5) ⟨3, 7⟩ = ⟨3, 7⟩ :=
  ⟨by norm_num, (rate_limiter_spacing 5 (by norm_num) ⟨0, 0⟩ [0, 0, 1]).1,
    (rate_limiter_spacing 5 (by norm_num) ⟨0, 0⟩ [0, 0, 1]).2 ⟨3, 7⟩⟩

/-- Removing the entries matching a key removes exactly as many entries as
the key's count. -/
theorem length_filter_not_key (l : List CacheEntry) (k : String) :
    (l.filter fun x => !(x.key == k)).length
      + l.countP (fun x => x.key == k) = l.length := by
  induction l with
  | nil => simp
  | cons x xs ih =>
    cases hx : x.key == k <;>
      simp [List.filter_cons, List.countP_cons, hx] <;>
      omega

/-- C4: `QueryCache.get` returns the stored payload iff
`now - write_time <= ttl`; on an expired entry it returns `None`, deletes
the entry as a side effect, and the entry no longer counts towards
`entry_count` (the count drops by one). -/
theorem cache_get_ttl (ttl now : ℚ) (entries : List CacheEntry) (k : String)
    (e : CacheEntry) (hf : entries.find? (fun x => x.key == k) = some e)
    (hnd : (entries.map CacheEntry.key).Nodup) :
    ((cacheGet ttl now entries k).1 = some e.payload ↔ now - e.mtime ≤ ttl)
  ∧ (ttl < now - e.mtime →
      (cacheGet ttl now entries k).1 = none
    ∧ (∀ x ∈ (cacheGet ttl now entries k).2, x.key ≠ k)
    ∧ entryCount (cacheGet ttl now entries k).2 + 1 = entryCount entries) := by
  have hc : cacheGet ttl now entries k =
      if ttl < now - e.mtime then (none, entries.filter fun x => !(x.key == k))
      else (some e.payload, entries) := by
    unfold cacheGet
    rw [hf]
  rw [hc]
  by_cases hexp : ttl < now - e.mtime
  · rw [if_pos hexp]
    refine ⟨iff_of_false (by simp) (not_le.mpr hexp), fun _ => ⟨rfl, ?_, ?_⟩⟩
    · intro x hx
      have := (List.mem_filter.mp hx).2
      simpa using this
    · have h1 : entries.countP (fun x => x.key == k) = 1 :=
        countP_key_eq_one entries k e hnd hf
      have h2 := length_filter_not_key entries k
      simp only [entryCount]
      omega
  · rw [if_neg hexp]
    exact ⟨iff_of_true rfl (not_lt.mp hexp), fun hc => absurd hc hexp⟩

/-- Witness for `cache_get_ttl`: two-entry cache, the looked-up entry is
expired at `now = 10` with `ttl = 3`. -/
theorem cache_get_ttl_witness :
    ([⟨"k1", 2, 5, "p1"⟩, ⟨"k2", 9, 5, "p2"⟩] : List CacheEntry).find?
        (fun x => x.key == "k1") = some ⟨"k1", 2, 5, "p1"⟩
  ∧ ((([⟨"k1", 2, 5, "p1"⟩, ⟨"k2", 9, 5, "p2"⟩] : List CacheEntry).map
        CacheEntry.key).Nodup)
  ∧ ((cacheGet 3 10 [⟨"k1", 2, 5, "p1"⟩, ⟨"k2", 9, 5, "p2"⟩] "k1").1
        = some "p1" ↔ (10 : ℚ) - 2 ≤ 3) :=
  ⟨by decide, by decide,
    (cache_get_ttl 3 10 [⟨"k1", 2, 5, "p1"⟩, ⟨"k2", 9, 5, "p2"⟩] "k1"
      ⟨"k1", 2, 5, "p1"⟩ (by decide) (by decide)).1⟩

/-- The files removed by the size-enforcement loop form a front segment of
the list it walks (oldest files first). -/
theorem removeOldest_front (budget : ℕ) :
    ∀ (total : ℕ) (files : List CacheEntry),
    removeOldestLoop budget total files <+: files := by
  intro total files
  induction files generalizing total with
  | nil => exact ⟨[], rfl⟩
  | cons f fs ih =>
    rw [removeOldestLoop]
    by_cases h : total ≤ budget
    · rw [if_pos h]
      exact ⟨f :: fs, rfl⟩
    · rw [if_neg h]
      obtain ⟨t, ht⟩ := ih (total - f.size)
      exact ⟨t, by rw [List.cons_append, ht]⟩

/-- The size-enforcement loop removes enough: starting from the true total,
what remains after subtracting the removed files' sizes is within budget. -/
theorem removeOldest_total (budget : ℕ) :
    ∀ (total : ℕ) (files : List CacheEntry), total = totalSize files →
    total - totalSize (removeOldestLoop budget total files) ≤ budget := by
  intro total files
  induction files generalizing total with
  | nil =>
    intro htot
    simp [totalSize] at htot
    simp [removeOldestLoop, htot]
  | cons f fs ih =>
    intro htot
    rw [removeOldestLoop]
    by_cases h : total ≤ budget
    · rw [if_pos h]
      simpa [totalSize] using h
    · rw [if_neg h]
      have hfs : total - f.size = totalSize fs := by
        simp only [totalSize, List.map_cons, List.sum_cons] at htot ⊢
        omega
      have hih := ih (total - f.size) hfs
      have hexp : totalSize (f :: removeOldestLoop budget (total - f.size) fs)
          = f.size + totalSize (removeOldestLoop budget (total - f.size) fs) := by
        simp [totalSize]
      rw [hexp]
      omega

/-- The size-enforcement loop stops as soon as the total is within budget:
removing any shorter front of the walked list leaves the total above
budget. -/
theorem removeOldest_minimal (budget : ℕ) :
    ∀ (total : ℕ) (files p : List CacheEntry),
    p <+: removeOldestLoop budget total files →
    p ≠ removeOldestLoop budget total files →
    budget < total - totalSize p := by
  intro total files
  induction files generalizing total with
  | nil =>
    intro p hp hne
    rw [removeOldestLoop] at hp hne
    obtain ⟨t, ht⟩ := hp
    exact absurd (List.append_eq_nil.mp ht).1 hne
  | cons f fs ih =>
    intro p hp hne
    rw [removeOldestLoop] at hp hne
    by_cases h : total ≤ budget
    · rw [if_pos h] at hp hne
      obtain ⟨t, ht⟩ := hp
      exact absurd (List.append_eq_nil.mp ht).1 hne
    · rw [if_neg h] at hp hne
      obtain ⟨t, ht⟩ := hp
      cases p with
      | nil =>
        simp [totalSize]
        omega
      | cons x p =>
        rw [List.cons_append] at ht
        have hx : x = f := (List.cons.injEq _ _ _ _ ▸ ht).1
        have hp' : p <+: removeOldestLoop budget (total - f.size) fs :=
          ⟨t, (List.cons.injEq _ _ _ _ ▸ ht).2⟩
        have hne' : p ≠ removeOldestLoop budget (total - f.size) fs := by
          intro hEq
          exact hne (by rw [hx, hEq])
        have := ih (total - f.size) p hp' hne'
        subst hx
        simp only [totalSize, List.map_cons, List.sum_cons] at *
        omega

/-- After the size-enforcement pass over a duplicate-free store, the total
stored bytes are within budget. -/
theorem enforceSizeLimit_le (budget : ℕ) (es : List CacheEntry)
    (hnd : es.Nodup) :
    totalSize (enforceSizeLimit budget es) ≤ budget := by
  by_cases h : totalSize es ≤ budget
  · rw [enforceSizeLimit, if_pos h]
    exact h
  · rw [enforceSizeLimit, if_neg h]
    set removed := removeOldestLoop budget (totalSize es)
      (List.insertionSort mtimeRel es) with hrem
    obtain ⟨suffix, hsplit⟩ :=
      removeOldest_front budget (totalSize es) (List.insertionSort mtimeRel es)
    rw [← hrem] at hsplit
    have hperm : (List.insertionSort mtimeRel es).Perm es :=
      List.perm_insertionSort mtimeRel es
    have hsnd : (List.insertionSort mtimeRel es).Nodup := hperm.nodup_iff.mpr hnd
    have hdisj : ∀ x ∈ suffix, x ∉ removed := by
      rw [← hsplit] at hsnd
      have hd := (List.nodup_append.mp hsnd).2.2
      exact fun x hx hxr => hd hxr hx
    have hfr : (List.insertionSort mtimeRel es).filter
        (fun e => decide (e ∉ removed)) = suffix := by
      rw [← hsplit, List.filter_append]
      have h1 : removed.filter (fun e => decide (e ∉ removed)) = [] := by
        rw [List.filter_eq_nil_iff]
        intro a ha
        simp [ha]
      have h2 : suffix.filter (fun e => decide (e ∉ removed)) = suffix := by
        rw [List.filter_eq_self]
        intro a ha
        simp [hdisj a ha]
      rw [h1, h2, List.nil_append]
    have hfilter_perm : (es.filter
        (fun e => decide (e ∉ removed))).Perm suffix := by
      rw [← hfr]
      exact (hperm.filter _).symm
    have hts : totalSize (es.filter (fun e => decide (e ∉ removed)))
        = totalSize suffix := (hfilter_perm.map CacheEntry.size).sum_eq
    have htot : totalSize removed + totalSize suffix
        = totalSize (List.insertionSort mtimeRel es) := by
      rw [← hsplit]
      unfold totalSize
      rw [List.map_append, List.sum_append]
    have hperm_size : totalSize (List.insertionSort mtimeRel es)
        = totalSize es := (hperm.map CacheEntry.size).sum_eq
    have hle := removeOldest_total budget (totalSize es)
      (List.insertionSort mtimeRel es) hperm_size.symm
    rw [← hrem] at hle
    rw [hts]
    omega

/-- The store written by `cacheSet` keeps keys (hence entries)
pairwise-distinct. -/
theorem cacheSet_written_nodup (entries : List CacheEntry) (k payload : String)
    (now : ℚ) (size : ℕ) (hnd : (entries.map CacheEntry.key).Nodup) :
    ((entries.filter fun e => !(e.key == k))
      ++ [({ key := k, mtime := now, size := size, payload := payload } : CacheEntry)]).Nodup := by
  apply List.Nodup.of_map CacheEntry.key
  rw [List.map_append, List.nodup_append]
  refine ⟨?_, by simp, ?_⟩
  · exact hnd.sublist ((List.filter_sublist entries).map CacheEntry.key)
  · intro x hx hy
    obtain ⟨e, he, hek⟩ := List.mem_map.mp hx
    have hne := (List.mem_filter.mp he).2
    simp only [List.map_cons, List.map_nil, List.mem_singleton] at hy
    rw [hek] at hne
    simp [hy] at hne

/-- C6: after every `QueryCache.set`, total stored bytes stay within the
configured budget; whenever the size-enforcement pass removes entries, the
removed entries form a front segment of the files in
oldest-modification-time-first order, and the pass stops as soon as the
total is within budget (removing any shorter front would leave the total
above budget). -/
theorem cache_set_size_budget (budget : ℕ) (now : ℚ) (entries : List CacheEntry)
    (k payload : String) (size : ℕ)
    (hnd : (entries.map CacheEntry.key).Nodup) :
    totalSize (cacheSet budget now entries k payload size) ≤ budget
  ∧ (∀ (total : ℕ) (files : List CacheEntry),
      removeOldestLoop budget total files <+: files)
  ∧ (∀ (total : ℕ) (files p : List CacheEntry),
      p <+: removeOldestLoop budget total files →
      p ≠ removeOldestLoop budget total files →
      budget < total - totalSize p) := by
  refine ⟨?_, removeOldest_front budget, removeOldest_minimal budget⟩
  exact enforceSizeLimit_le budget _
    (cacheSet_written_nodup entries k payload now size hnd)

/-- Witness for `cache_set_size_budget`: a two-entry store of 12 bytes with
a 10-byte budget receives a third 6-byte entry; the pass leaves at most 10
bytes stored. -/
theorem cache_set_size_budget_witness :
    ((([⟨"a", 1, 6, "x"⟩, ⟨"b", 2, 6, "y"⟩] : List CacheEntry).map
        CacheEntry.key).Nodup)
  ∧ totalSize (cacheSet 10 5 [⟨"a", 1, 6, "x"⟩, ⟨"b", 2, 6, "y"⟩] "c" "z" 6)
      ≤ 10 :=
  ⟨by decide,
    (cache_set_size_budget 10 5 [⟨"a", 1, 6, "x"⟩, ⟨"b", 2, 6, "y"⟩] "c" "z" 6
      (by decide)).1⟩

/-- The dedup kept by `firstOcc` is a sublist of its input. -/
theorem firstOcc_sublist : ∀ l : List Transfer, List.Sublist (firstOcc l) l
  | [] => by
    rw [firstOcc]
  | t :: ts => by
    rw [firstOcc]
    exact List.Sublist.cons₂ t
      ((firstOcc_sublist _).trans (List.filter_sublist ts))
termination_by l => l.length
decreasing_by
  simp only [List.length_cons]
  exact Nat.lt_succ_of_le (List.length_filter_le _ _)

/-- After `firstOcc`, dedup keys are pairwise distinct. -/
theorem firstOcc_keys_nodup : ∀ l : List Transfer,
    ((firstOcc l).map dedupKey).Nodup
  | [] => by
    rw [firstOcc]
    exact List.nodup_nil
  | t :: ts => by
    rw [firstOcc, List.map_cons, List.nodup_cons]
    refine ⟨?_, firstOcc_keys_nodup _⟩
    intro hmem
    obtain ⟨u, hu, hku⟩ := List.mem_map.mp hmem
    have hu2 : u ∈ ts.filter (fun u => !(dedupKey u == dedupKey t)) :=
      (firstOcc_sublist _).subset hu
    have hne := (List.mem_filter.mp hu2).2
    simp [hku] at hne
termination_by l => l.length
decreasing_by
  simp only [List.length_cons]
  exact Nat.lt_succ_of_le (List.length_filter_le _ _)

/-- The seen-set loop of `_merge_transfers` computes exactly the
first-occurrence dedup of the part of its input whose keys are unseen. -/
theorem dedupLoop_eq_firstOcc : ∀ (l : List Transfer) (seen : List String),
    dedupLoop l seen = firstOcc (l.filter fun t => decide (dedupKey t ∉ seen)) := by
  intro l
  induction l with
  | nil =>
    intro seen
    simp only [List.filter_nil, dedupLoop, firstOcc]
  | cons t ts ih =>
    intro seen
    by_cases h : dedupKey t ∈ seen
    · have hp : (decide (dedupKey t ∉ seen)) = false := by simp [h]
      rw [dedupLoop, if_pos h, List.filter_cons, hp]
      exact ih seen
    · have hp : (decide (dedupKey t ∉ seen)) = true := by simp [h]
      rw [dedupLoop, if_neg h, List.filter_cons, hp]
      simp only [if_true]
      rw [firstOcc, List.filter_filter]
      rw [List.filter_congr (fun x hx => ?_), ih (dedupKey t :: seen)]
      by_cases h1 : dedupKey x = dedupKey t <;>
        by_cases h2 : dedupKey x ∈ seen <;>
        simp [h1, h2]

/-- `_merge_transfers` is the stable sort of the first-occurrence
dedup of `historical ++ recent`. -/
theorem mergeTransfers_eq_sort_firstOcc (h r : List Transfer) :
    mergeTransfers h r = List.insertionSort mergeRel (firstOcc (h ++ r)) := by
  unfold mergeTransfers
  rw [dedupLoop_eq_firstOcc]
  have he : ((h ++ r).filter fun t => decide (dedupKey t ∉ ([] : List String)))
      = h ++ r :=
    List.filter_eq_self.mpr (fun a _ => by simp)
  rw [he]

/-- Inserting into a list passes only strictly smaller keys, so the
key-`k` fiber of `orderedInsert` is the element (when its key is `k`)
consed onto the fiber of the tail. -/
theorem filter_orderedInsert (k : ℕ × ℕ) (t : Transfer) :
    ∀ l : List Transfer,
    (List.orderedInsert mergeRel t l).filter (fun u => decide (sortKey u = k))
      = if sortKey t = k
        then t :: l.filter (fun u => decide (sortKey u = k))
        else l.filter (fun u => decide (sortKey u = k)) := by
  intro l
  induction l with
  | nil =>
    by_cases hk : sortKey t = k <;> simp [List.orderedInsert, hk]
  | cons b bs ih =>
    rw [List.orderedInsert]
    by_cases hrb : mergeRel t b
    · rw [if_pos hrb]
      by_cases hk : sortKey t = k <;> simp [List.filter_cons, hk]
    · rw [if_neg hrb]
      have hbk : sortKey b ≠ sortKey t := by
        intro he
        apply hrb
        unfold mergeRel
        rw [he]
        simp [keyLeB]
      by_cases hk : sortKey t = k
      · have hbk2 : ¬ (sortKey b = k) := fun hb => hbk (hb.trans hk.symm)
        simp [List.filter_cons, hbk2, hk, ih]
      · simp [List.filter_cons, hk, ih]

/-- Insertion sort is stable: it preserves every key fiber. -/
theorem filter_insertionSort (k : ℕ × ℕ) :
    ∀ l : List Transfer,
    (List.insertionSort mergeRel l).filter (fun u => decide (sortKey u = k))
      = l.filter (fun u => decide (sortKey u = k)) := by
  intro l
  induction l with
  | nil => rfl
  | cons t ts ih =>
    rw [List.insertionSort, filter_orderedInsert]
    by_cases hk : sortKey t = k <;> simp [List.filter_cons, hk, ih]

/-- C1: `_merge_transfers` concatenates historical then recent transfers,
keeps only the first occurrence of each `(tx_hash, log_index-or-0)` key
(`firstOcc`, whose keys are pairwise distinct in the output), and returns
the result sorted non-decreasingly by `(block_number, log_index-or-0)`;
the sort is stable (every sort-key fiber of the output equals the
corresponding fiber of the dedup, in order); on the spec's example the
result is `[A@10, B@12, C@15]` with the duplicate of B removed. -/
theorem merge_transfers_spec (h r : List Transfer) :
    List.Sorted mergeRel (mergeTransfers h r)
  ∧ ((mergeTransfers h r).map dedupKey).Nodup
  ∧ (∀ k : ℕ × ℕ,
      (mergeTransfers h r).filter (fun u => decide (sortKey u = k))
        = (firstOcc (h ++ r)).filter (fun u => decide (sortKey u = k)))
  ∧ mergeTransfers [exA, exBhist] [exBrpc, exC] = [exA, exBhist, exC] := by
  refine ⟨?_, ?_, ?_, ?_⟩
  · unfold mergeTransfers
    exact List.sorted_insertionSort mergeRel _
  · rw [mergeTransfers_eq_sort_firstOcc]
    exact ((List.perm_insertionSort mergeRel
      (firstOcc (h ++ r))).map dedupKey).nodup_iff.mpr (firstOcc_keys_nodup _)
  · intro k
    rw [mergeTransfers_eq_sort_firstOcc, filter_insertionSort]
  · decide
